import Mathlib

/-!
Shallow embedding of `utils.py` (training-loop utilities: `index_dict`,
`rotate`, `load_pretrain`, `to_long`, `Optimizer`, `StepLR`) together with
proofs of the specified properties.

Python floats are idealised as `ℚ` (for the schedule, coefficients and
gradients) or `ℝ` (for the trigonometry in `rotate`); Python ints as `ℤ`;
tensors as lists of their elements together with a shape.
-/

namespace Utils

/-! ## StepLR (utils.py lines 187-205) -/

/-- State of a `StepLR` schedule: `self.lr` (the rate list) and
`self.lr_epochs` (the threshold list). -/
structure StepLR where
  lr : List ℚ
  lr_epochs : List ℤ
  deriving Repr, DecidableEq

/-- `StepLR.__init__` (lines 188-191): `assert len(lr) - len(lr_epochs) == 1`
(Python `int` subtraction, hence computed in `ℤ`); on assertion failure the
construction aborts, modelled as `none`. -/
def StepLR.mk? (lr : List ℚ) (lr_epochs : List ℤ) : Option StepLR :=
  if (lr.length : ℤ) - (lr_epochs.length : ℤ) = 1 then
    some ⟨lr, lr_epochs⟩
  else
    none

/-- The index-scan loop of `StepLR.__call__` (lines 194-198): `idx = 0`;
for each `lr_epoch` in `lr_epochs`, break if `epoch < lr_epoch`, else
`idx += 1`. -/
def stepIdx (lr_epochs : List ℤ) (epoch : ℤ) : Nat :=
  match lr_epochs with
  | [] => 0
  | e :: rest => if epoch < e then 0 else stepIdx rest epoch + 1

/-- `StepLR.__call__` (lines 193-199): returns `self.lr[idx]`.  Under the
constructor invariant `len(lr) = len(lr_epochs) + 1` the index is always in
range, so the `getD` default is never reached. -/
def StepLR.call (s : StepLR) (epoch : ℤ) : ℚ :=
  s.lr.getD (stepIdx s.lr_epochs epoch) 0

/-- `StepLR.state_dict` (lines 201-205): the snapshot `{lr, lr_epochs}`. -/
structure StepLRState where
  lr : List ℚ
  lr_epochs : List ℤ
  deriving Repr, DecidableEq

def StepLR.state_dict (s : StepLR) : StepLRState :=
  ⟨s.lr, s.lr_epochs⟩

/-! ## index_dict (utils.py lines 13-17)

Python dicts are modelled as association lists (insertion-ordered, keys
unique in any dict built by Python).  The value type `α` and the indexing
operation `data[key][idcs]` are abstract: `getIdx v idcs` stands for
`v[idcs]`. -/

/-- `index_dict(data, idcs)` (lines 13-17): builds a fresh dict with
`returns[key] = data[key][idcs]` for every key of `data`, in order.  The
input `data` is read but never written. -/
def index_dict {κ α β ι : Type} (getIdx : α → ι → β)
    (data : List (κ × α)) (idcs : ι) : List (κ × β) :=
  data.map fun kv => (kv.1, getIdx kv.2 idcs)

/-! ## load_pretrain (utils.py lines 51-59) -/

/-- A tensor: its shape (what `Tensor.size()` returns) and its elements. -/
structure Tensor where
  shape : List Nat
  data : List ℚ
  deriving Repr, DecidableEq

/-- A `state_dict`: an insertion-ordered mapping from parameter name to
tensor. -/
abbrev StateDict := List (String × Tensor)

/-- Keys of a state dict, in order. -/
def sdKeys (sd : StateDict) : List String :=
  sd.map Prod.fst

/-- Python dict assignment `state_dict[key] = value` for a `key` already
present: the entry is overwritten in place (order preserved). -/
def setKey (sd : StateDict) (k : String) (v : Tensor) : StateDict :=
  sd.map fun kv => if kv.1 = k then (k, v) else kv

/-- One iteration of the `load_pretrain` loop (lines 53-58): if `key` is in
`state_dict` and the sizes agree, overwrite the entry with the pretrained
value; otherwise skip silently.  (The `value.data` unwrap for non-tensor
values is the identity here, values being modelled as tensors.) -/
def loadStep (sd : StateDict) (kv : String × Tensor) : StateDict :=
  match sd.lookup kv.1 with
  | some t => if kv.2.shape = t.shape then setKey sd kv.1 kv.2 else sd
  | none => sd

/-- `load_pretrain(net, pretrain_dict)` (lines 51-59): starts from the
net's state dict, folds the loop over the pretrained entries, and the
result is loaded back into the net (so it is the net's new parameter
mapping).  Total: no branch raises. -/
def load_pretrain (net : StateDict) (pretrain : StateDict) : StateDict :=
  pretrain.foldl loadStep net

/-! ## Optimizer (utils.py lines 87-169)

The underlying torch optimizer is external code: it is modelled as the
abstract pieces the wrapper touches — its `param_groups` (each a list of
parameters plus a group learning rate) and an opaque internal state `σ`
(momentum buffers, step counts); its `step`, `state_dict` and
`load_state_dict` methods are abstract function parameters. -/

/-- A parameter: its value tensor and its gradient (absent when Python's
`p.grad is None`).  Elements idealised as `ℚ`. -/
structure Param where
  data : List ℚ
  grad : Option (List ℚ)
  deriving Repr, DecidableEq

/-- One of the underlying optimizer's `param_groups`: `{"params": …, "lr": …}`. -/
structure ParamGroup where
  params : List Param
  lr : ℚ
  deriving Repr, DecidableEq

/-- The underlying optimizer (`self.opt`): its param groups plus its opaque
internal state. -/
structure InnerOpt (σ : Type) where
  param_groups : List ParamGroup
  internal : σ

/-- The `Optimizer` wrapper's attributes (`self.coef`, `self.lr_func`,
`self.opt`, `self.clip_grads` and the clip bounds; in the source the bound
attributes exist only when clipping is configured, and are read only in
that case). -/
structure Optimizer (σ : Type) where
  coef : List ℚ
  lr_func : StepLR
  opt : InnerOpt σ
  clip_grads : Bool
  clip_low : ℚ
  clip_high : ℚ

/-- `Optimizer.__init__` (lines 88-122) with `params` already a list (the
source wraps a single param into a one-element list first).  Line 92
unconditionally rebinds the local `coef` to `[1.0] * len(params)`, so the
`coefArg` argument (Python default `None`) is dead.  The hard-coded config
is `opt='adam'` (assertion `opt in {sgd, adam}` passes), `lr=[1e-3, 1e-4]`,
`lr_epochs=[32]`; each param group starts with `lr=0`; `clip_grads` is
absent from the config, hence `False`. -/
def Optimizer.init {σ : Type} (params : List (List Param))
    (coefArg : Option (List ℚ)) (internal : σ) : Optimizer σ :=
  let coef := List.replicate params.length (1 : ℚ)
  { coef := coef
    lr_func := ⟨[1/1000, 1/10000], [32]⟩
    opt := ⟨params.map fun p => { params := p, lr := 0 }, internal⟩
    clip_grads := false
    clip_low := 0
    clip_high := 0 }

/-- First clipping pass (lines 143-144): `mask = p.grad.data < low;
p.grad.data[mask] = low`. -/
def clipLowPass (low : ℚ) (g : List ℚ) : List ℚ :=
  g.map fun x => if x < low then low else x

/-- Second clipping pass (lines 145-146): `mask = p.grad.data > high;
p.grad.data[mask] = high`. -/
def clipHighPass (high : ℚ) (g : List ℚ) : List ℚ :=
  g.map fun x => if high < x then high else x

/-- Both passes applied to one parameter's gradient; a parameter with no
gradient is filtered out by line 141 and left untouched. -/
def Param.clipGrad (low high : ℚ) (p : Param) : Param :=
  { p with grad := p.grad.map fun g => clipHighPass high (clipLowPass low g) }

/-- `Optimizer.clip` (lines 137-146): every parameter (gathered across all
param groups) with a present gradient has its gradient clipped in place by
the two passes. -/
def Optimizer.clip {σ : Type} (o : Optimizer σ) : Optimizer σ :=
  { o with
    opt := { o.opt with
      param_groups := o.opt.param_groups.map fun pg =>
        { pg with params := pg.params.map (Param.clipGrad o.clip_low o.clip_high) } } }

/-- The spec's single combined clamp into `[low, high]`, against which the
two-pass implementation is compared. -/
def clamp (low high x : ℚ) : ℚ :=
  min (max x low) high

/-- `Optimizer.step(epoch)` (lines 127-135): clip if `self.clip_grads`;
`lr = self.lr_func(epoch)`; set group `i`'s `"lr"` to `lr * self.coef[i]`
(the source indexes `coef` positionally over `enumerate(param_groups)`,
modelled by `zip`; all constructed states have equally long lists);
delegate the update to the underlying optimizer (`inner_step`); return the
base `lr`. -/
def Optimizer.step {σ : Type} (inner_step : InnerOpt σ → InnerOpt σ)
    (o : Optimizer σ) (epoch : ℤ) : Optimizer σ × ℚ :=
  let o' := if o.clip_grads then o.clip else o
  let lr := o'.lr_func.call epoch
  let groups := (o'.opt.param_groups.zip o'.coef).map fun gc =>
    { gc.1 with lr := lr * gc.2 }
  let opt := inner_step { o'.opt with param_groups := groups }
  ({ o' with opt := opt }, lr)

/-- The snapshot returned by `Optimizer.state_dict` (lines 151-161): exactly
the three fields `lr_func`, `coef`, `opt_state` (the latter opaque, of the
underlying optimizer's snapshot type `ι`). -/
structure OptimizerState (ι : Type) where
  lr_func : StepLRState
  coef : List ℚ
  opt_state : ι

/-- `Optimizer.state_dict` (lines 151-161); `inner_snap` stands for
`self.opt.state_dict()`. -/
def Optimizer.state_dict {σ ι : Type} (inner_snap : InnerOpt σ → ι)
    (o : Optimizer σ) : OptimizerState ι :=
  ⟨o.lr_func.state_dict, o.coef, inner_snap o.opt⟩

/-- `Optimizer.load_state_dict` (lines 148-149): only forwards `opt_state`
to the underlying optimizer's restore (`inner_load`); the symmetric restore
of `coef` and the schedule is commented out in the source. -/
def Optimizer.load_state_dict {σ ι : Type} (inner_load : InnerOpt σ → ι → InnerOpt σ)
    (o : Optimizer σ) (opt_state : ι) : Optimizer σ :=
  { o with opt := inner_load o.opt opt_state }

/-! ## to_long (utils.py lines 77-85)

`to_long` traverses a nested structure of dicts, lists, tuples and tensors.
To make the in-place-versus-rebuild distinction of the source observable,
every Python object carries an identity tag (`Nat`), and `to_long` threads
a fresh-tag counter: an object returned with its input tag is the same
object (possibly mutated in place); an object whose tag is taken from the
counter is newly allocated. -/

/-- The tensor dtypes the function distinguishes: `torch.int16`, the
`torch.int64` produced by `.long()`, and a stand-in for every other
dtype. -/
inductive DType
  | int16
  | int64
  | float32
  deriving Repr, DecidableEq

/-- A Python value as traversed by `to_long`: dict, list, tuple, or tensor
leaf, each with its object-identity tag. -/
inductive PyData
  | dict : Nat → List (String × PyData) → PyData
  | list : Nat → List PyData → PyData
  | tuple : Nat → List PyData → PyData
  | tensor : Nat → DType → List ℤ → PyData

/-- The identity tag of a value. -/
def PyData.objId : PyData → Nat
  | .dict i _ => i
  | .list i _ => i
  | .tuple i _ => i
  | .tensor i _ _ => i

mutual
/-- `to_long(data)` (lines 77-85), threading the fresh-tag counter.  The
dict branch (lines 78-80) mutates `data` in place: the result keeps the
dict's tag.  The sequence branch (lines 81-82) is the list comprehension
`[to_long(x) for x in data]`: a freshly allocated list (for tuple input as
well — the comprehension yields a list).  A 16-bit tensor (lines 83-84)
becomes the freshly allocated 64-bit tensor `data.long()`, values intact;
any other tensor is returned unchanged, same object. -/
def to_long (c : Nat) : PyData → Nat × PyData
  | .dict i es =>
    let p := to_long_entries c es
    (p.1, .dict i p.2)
  | .list _ es =>
    let p := to_long_list c es
    (p.1 + 1, .list p.1 p.2)
  | .tuple _ es =>
    let p := to_long_list c es
    (p.1 + 1, .list p.1 p.2)
  | .tensor i dt vs =>
    if dt = DType.int16 then (c + 1, .tensor c .int64 vs) else (c, .tensor i dt vs)

/-- The loop `for key in data.keys(): data[key] = to_long(data[key])`. -/
def to_long_entries (c : Nat) : List (String × PyData) → Nat × List (String × PyData)
  | [] => (c, [])
  | (k, v) :: rest =>
    let p := to_long c v
    let q := to_long_entries p.1 rest
    (q.1, (k, p.2) :: q.2)

/-- The comprehension `[to_long(x) for x in data]`. -/
def to_long_list (c : Nat) : List PyData → Nat × List PyData
  | [] => (c, [])
  | v :: rest =>
    let p := to_long c v
    let q := to_long_list p.1 rest
    (q.1, p.2 :: q.2)
end

/-- The observable content of a value: identity tags erased, and the two
Python sequence kinds identified (the source's sequence branch yields a
list even for tuple input, so content-wise a sequence is just its ordered
elements). -/
inductive Obs
  | dict : List (String × Obs) → Obs
  | seq : List Obs → Obs
  | tensor : DType → List ℤ → Obs

mutual
def obs : PyData → Obs
  | .dict _ es => .dict (obsEntries es)
  | .list _ es => .seq (obsList es)
  | .tuple _ es => .seq (obsList es)
  | .tensor _ dt vs => .tensor dt vs

def obsEntries : List (String × PyData) → List (String × Obs)
  | [] => []
  | (k, v) :: rest => (k, obs v) :: obsEntries rest

def obsList : List PyData → List Obs
  | [] => []
  | v :: rest => obs v :: obsList rest
end

mutual
/-- The claim's content transform, written from the spec's words: convert
exactly the 16-bit integer tensor leaves to 64-bit, pass every other leaf
through unchanged, and preserve the container structure. -/
def widenSpec : Obs → Obs
  | .dict es => .dict (widenSpecEntries es)
  | .seq es => .seq (widenSpecList es)
  | .tensor dt vs =>
    if dt = DType.int16 then .tensor .int64 vs else .tensor dt vs

def widenSpecEntries : List (String × Obs) → List (String × Obs)
  | [] => []
  | (k, v) :: rest => (k, widenSpec v) :: widenSpecEntries rest

def widenSpecList : List Obs → List Obs
  | [] => []
  | v :: rest => widenSpec v :: widenSpecList rest
end

mutual
/-- Heap well-formedness: every identity tag in the value is below the
fresh counter `c`. -/
def idsBelow (c : Nat) : PyData → Bool
  | .dict i es => decide (i < c) && idsBelowEntries c es
  | .list i es => decide (i < c) && idsBelowList c es
  | .tuple i es => decide (i < c) && idsBelowList c es
  | .tensor i _ _ => decide (i < c)

def idsBelowEntries (c : Nat) : List (String × PyData) → Bool
  | [] => true
  | (_, v) :: rest => idsBelow c v && idsBelowEntries c rest

def idsBelowList (c : Nat) : List PyData → Bool
  | [] => true
  | v :: rest => idsBelow c v && idsBelowList c rest
end

/-- The identity behaviour of `to_long` on input `d` with fresh counter `c`,
result `r`: a dict is mutated in place (same object); a list or tuple is
rebuilt as a freshly allocated list (tag at least `c`, hence distinct from
every tag of the well-formed input); an int16 tensor becomes a fresh tensor;
every other tensor is returned as-is. -/
def identityBehavior (c : Nat) (d r : PyData) : Prop :=
  match d with
  | .dict i _ => ∃ es', r = .dict i es'
  | .list _ _ => ∃ j es', r = .list j es' ∧ c ≤ j
  | .tuple _ _ => ∃ j es', r = .list j es' ∧ c ≤ j
  | .tensor _ DType.int16 vs => ∃ j, r = .tensor j .int64 vs ∧ c ≤ j
  | .tensor _ _ _ => r = d

/-! ## rotate (utils.py lines 20-28)

The float trigonometry is idealised over `ℝ`.  A batch of N points of
shape (N, 2) is a list of pairs; `theta` a list of angles. -/

/-- `rotate(xy, theta)` (lines 20-28): row `i` of the result is the matrix
`[[cos θᵢ, -sin θᵢ], [sin θᵢ, cos θᵢ]]` (lines 23-26) applied to `xy[i]`
by the batched matmul of line 27. -/
noncomputable def rotate (xy : List (ℝ × ℝ)) (theta : List ℝ) : List (ℝ × ℝ) :=
  (xy.zip theta).map fun p =>
    (Real.cos p.2 * p.1.1 + (-Real.sin p.2) * p.1.2,
     Real.sin p.2 * p.1.1 + Real.cos p.2 * p.1.2)

/-! Helper lemmas characterising the scan index. -/

theorem stepIdx_le_length (lr_epochs : List ℤ) (epoch : ℤ) :
    stepIdx lr_epochs epoch ≤ lr_epochs.length := by
  induction lr_epochs with
  | nil => simp [stepIdx]
  | cons e rest ih =>
    simp only [stepIdx, List.length_cons]
    split
    · omega
    · omega

theorem stepIdx_not_lt (lr_epochs : List ℤ) (epoch : ℤ) (j : Nat)
    (hj : j < stepIdx lr_epochs epoch) :
    ∃ hlen : j < lr_epochs.length, ¬ epoch < lr_epochs.get ⟨j, hlen⟩ := by
  induction lr_epochs generalizing j with
  | nil => simp [stepIdx] at hj
  | cons e rest ih =>
    simp only [stepIdx] at hj
    split at hj
    · omega
    · match j with
      | 0 =>
        refine ⟨by simp, ?_⟩
        simpa using ‹¬ epoch < e›
      | j + 1 =>
        obtain ⟨hlen, hlt⟩ := ih j (by omega)
        exact ⟨by simpa using Nat.succ_lt_succ hlen, by simpa using hlt⟩

theorem stepIdx_lt_of_lt (lr_epochs : List ℤ) (epoch : ℤ)
    (h : stepIdx lr_epochs epoch < lr_epochs.length) :
    epoch < lr_epochs.get ⟨stepIdx lr_epochs epoch, h⟩ := by
  induction lr_epochs with
  | nil => simp at h
  | cons e rest ih =>
    by_cases hc : epoch < e
    · simp [stepIdx, hc]
    · simp only [stepIdx, hc, if_false, List.length_cons] at h ⊢
      simpa using ih (by omega)

theorem mk?_some (rates : List ℚ) (thresholds : List ℤ)
    (h : rates.length = thresholds.length + 1) :
    StepLR.mk? rates thresholds = some ⟨rates, thresholds⟩ := by
  unfold StepLR.mk?
  rw [if_pos (by omega)]

/-- C1: a `StepLR` built from `rates` and `thresholds` with
`len(rates) = len(thresholds) + 1` evaluates at any epoch to `rates[idx]`,
where `idx` is the smallest index with `epoch < thresholds[idx]` (no index
before it satisfies the comparison, and `idx` does whenever it is in range),
or `len(thresholds)` when none does; concretely, with `rates = [1e-3, 1e-4]`
and `thresholds = [32]` the schedule returns `1e-3` at epochs 0 and 31 and
`1e-4` at epochs 32 and 1000. -/
theorem stepLR_call_eval (rates : List ℚ) (thresholds : List ℤ)
    (h : rates.length = thresholds.length + 1) :
    (∃ s, StepLR.mk? rates thresholds = some s ∧
      ∀ epoch : ℤ,
        ∃ hlt : stepIdx thresholds epoch < rates.length,
          s.call epoch = rates.get ⟨stepIdx thresholds epoch, hlt⟩ ∧
          stepIdx thresholds epoch ≤ thresholds.length ∧
          (∀ j, j < stepIdx thresholds epoch →
            ∃ hjl : j < thresholds.length, ¬ epoch < thresholds.get ⟨j, hjl⟩) ∧
          (∀ hle : stepIdx thresholds epoch < thresholds.length,
            epoch < thresholds.get ⟨stepIdx thresholds epoch, hle⟩)) ∧
    (∀ s, StepLR.mk? [1/1000, 1/10000] [32] = some s →
      s.call 0 = 1/1000 ∧ s.call 31 = 1/1000 ∧
      s.call 32 = 1/10000 ∧ s.call 1000 = 1/10000) := by
  constructor
  · refine ⟨⟨rates, thresholds⟩, mk?_some rates thresholds h, ?_⟩
    intro epoch
    have hle := stepIdx_le_length thresholds epoch
    have hlt : stepIdx thresholds epoch < rates.length := by omega
    refine ⟨hlt, ?_, hle, stepIdx_not_lt thresholds epoch,
      stepIdx_lt_of_lt thresholds epoch⟩
    simp [StepLR.call, List.getD_eq_getElem?_getD, List.getElem?_eq_getElem hlt]
  · intro s hs
    have hmk : StepLR.mk? [(1 : ℚ)/1000, 1/10000] [(32 : ℤ)]
        = some ⟨[1/1000, 1/10000], [32]⟩ :=
      mk?_some _ _ (by decide)
    rw [hmk] at hs
    obtain rfl := Option.some_inj.mp hs
    refine ⟨?_, ?_, ?_, ?_⟩ <;> norm_num [StepLR.call, stepIdx]

/-- Witness for C1 at `rates = [1e-3, 1e-4]`, `thresholds = [32]`. -/
theorem stepLR_call_eval_witness :
    (StepLR.mk? [(1 : ℚ)/1000, 1/10000] [(32 : ℤ)]).isSome = true := by
  obtain ⟨⟨s, hs, -⟩, -⟩ :=
    stepLR_call_eval [(1 : ℚ)/1000, 1/10000] [(32 : ℤ)] (by decide)
  rw [hs]
  rfl

/-- C7: `StepLR` construction succeeds exactly when
`len(rates) = len(thresholds) + 1`; any other length combination fails the
constructor's assertion and aborts construction. -/
theorem stepLR_mk_succeeds_iff (rates : List ℚ) (thresholds : List ℤ) :
    (StepLR.mk? rates thresholds).isSome = true ↔
      rates.length = thresholds.length + 1 := by
  unfold StepLR.mk?
  split
  · simp only [Option.isSome_some, true_iff]
    omega
  · simp only [Option.isSome_none, Bool.false_eq_true, false_iff]
    omega

theorem lookup_map_value {κ α β : Type} [BEq κ] (f : α → β)
    (data : List (κ × α)) (k : κ) :
    (data.map fun kv => (kv.1, f kv.2)).lookup k = (data.lookup k).map f := by
  induction data with
  | nil => simp
  | cons kv rest ih =>
    obtain ⟨a, b⟩ := kv
    simp only [List.map_cons, List.lookup_cons]
    cases hk : k == a
    · exact ih
    · rfl

/-- C8: `index_dict(d, idcs)` returns a new mapping with exactly the keys
of `d` (in order), whose value at every key `k` is `d[k][idcs]`; the input
mapping is a pure argument, never written (the function builds a fresh
dict). -/
theorem index_dict_spec {κ α β ι : Type} [BEq κ] (getIdx : α → ι → β)
    (data : List (κ × α)) (idcs : ι) (k : κ) :
    (index_dict getIdx data idcs).lookup k
        = (data.lookup k).map (fun v => getIdx v idcs) ∧
    (index_dict getIdx data idcs).map Prod.fst = data.map Prod.fst := by
  refine ⟨?_, by simp [index_dict]⟩
  simpa [index_dict] using lookup_map_value (fun v => getIdx v idcs) data k

theorem sdKeys_setKey (sd : StateDict) (k : String) (v : Tensor) :
    sdKeys (setKey sd k v) = sdKeys sd := by
  induction sd with
  | nil => rfl
  | cons kv rest ih =>
    simp only [setKey, sdKeys, List.map_cons] at ih ⊢
    by_cases hk : kv.1 = k
    · simp [hk, ih]
    · simp [hk, ih]

theorem sdKeys_loadStep (sd : StateDict) (kv : String × Tensor) :
    sdKeys (loadStep sd kv) = sdKeys sd := by
  unfold loadStep
  cases sd.lookup kv.1 with
  | none => rfl
  | some t =>
    by_cases hsh : kv.2.shape = t.shape
    · simp [hsh, sdKeys_setKey]
    · simp [hsh]

theorem sdKeys_load_pretrain (net pretrain : StateDict) :
    sdKeys (load_pretrain net pretrain) = sdKeys net := by
  induction pretrain generalizing net with
  | nil => rfl
  | cons kv rest ih =>
    simp only [load_pretrain, List.foldl_cons] at ih ⊢
    rw [ih, sdKeys_loadStep]

theorem lookup_setKey_self (sd : StateDict) (k : String) (v : Tensor) :
    (setKey sd k v).lookup k = (sd.lookup k).map fun _ => v := by
  induction sd with
  | nil => rfl
  | cons kv rest ih =>
    obtain ⟨a, b⟩ := kv
    simp only [setKey, List.map_cons] at ih ⊢
    by_cases hk : a = k
    · subst hk
      simp [List.lookup_cons]
    · have hbk : (k == a) = false := by
        simp only [beq_eq_false_iff_ne, ne_eq]
        exact fun h => hk h.symm
      simp only [if_neg hk, List.lookup_cons, hbk]
      exact ih

theorem lookup_setKey_ne (sd : StateDict) (k k' : String) (v : Tensor)
    (h : k' ≠ k) :
    (setKey sd k v).lookup k' = sd.lookup k' := by
  induction sd with
  | nil => rfl
  | cons kv rest ih =>
    obtain ⟨a, b⟩ := kv
    simp only [setKey, List.map_cons] at ih ⊢
    by_cases hk : a = k
    · subst hk
      have hbk : (k' == a) = false := by
        simp only [beq_eq_false_iff_ne, ne_eq]
        exact h
      have hhead : (if a = a then ((a : String), v) else (a, b)) = (a, v) :=
        if_pos rfl
      rw [hhead]
      simp only [List.lookup_cons, hbk]
      exact ih
    · simp only [if_neg hk, List.lookup_cons]
      cases hbk : k' == a
      · exact ih
      · rfl

theorem lookup_loadStep_ne (sd : StateDict) (kv : String × Tensor)
    (k' : String) (h : k' ≠ kv.1) :
    (loadStep sd kv).lookup k' = sd.lookup k' := by
  unfold loadStep
  cases sd.lookup kv.1 with
  | none => rfl
  | some t =>
    by_cases hsh : kv.2.shape = t.shape
    · simp [hsh, lookup_setKey_ne sd kv.1 k' kv.2 h]
    · simp [hsh]

theorem lookup_load_pretrain_not_mem (net pretrain : StateDict) (k : String)
    (h : ∀ kv ∈ pretrain, k ≠ kv.1) :
    (load_pretrain net pretrain).lookup k = net.lookup k := by
  induction pretrain generalizing net with
  | nil => rfl
  | cons kv rest ih =>
    simp only [load_pretrain, List.foldl_cons] at ih ⊢
    rw [ih _ fun kv' hkv' => h kv' (List.mem_cons_of_mem kv hkv'),
      lookup_loadStep_ne net kv k (h kv (List.mem_cons_self kv rest))]

theorem lookup_load_pretrain (net pretrain : StateDict) (k : String)
    (hnd : (sdKeys pretrain).Nodup) :
    (load_pretrain net pretrain).lookup k =
      match net.lookup k, pretrain.lookup k with
      | some t, some p => if p.shape = t.shape then some p else some t
      | some t, none => some t
      | none, _ => none := by
  revert hnd
  induction pretrain generalizing net with
  | nil =>
    intro hnd
    cases hnet : net.lookup k <;> simp [load_pretrain, hnet]
  | cons kv rest ih =>
    intro hnd
    obtain ⟨key, p⟩ := kv
    simp only [sdKeys, List.map_cons, List.nodup_cons] at hnd
    obtain ⟨hhead, hrest⟩ := hnd
    show (load_pretrain (loadStep net (key, p)) rest).lookup k = _
    by_cases hk : k = key
    · subst hk
      have hnotmem : ∀ kv' ∈ rest, k ≠ kv'.1 := by
        intro kv' hkv' heq
        exact hhead (heq ▸ List.mem_map_of_mem Prod.fst hkv')
      rw [lookup_load_pretrain_not_mem _ rest k hnotmem]
      have hlookcons : ((k, p) :: rest).lookup k = some p := by
        simp [List.lookup_cons]
      rw [hlookcons]
      cases hnet : net.lookup k with
      | none => simp [loadStep, hnet]
      | some t =>
        by_cases hsh : p.shape = t.shape
        · simp [loadStep, hnet, hsh, lookup_setKey_self]
        · simp [loadStep, hnet, hsh]
    · rw [ih (loadStep net (key, p)) hrest,
        lookup_loadStep_ne net (key, p) k hk]
      have hlookcons : ((key, p) :: rest).lookup k = rest.lookup k := by
        have hbk : (k == key) = false := by
          simp only [beq_eq_false_iff_ne, ne_eq]
          exact hk
        simp [List.lookup_cons, hbk]
      rw [hlookcons]

/-- C6: `load_pretrain` keeps exactly the net's keys; at every key the
result holds the pretrained value when the key is present in both mappings
with equal shapes, and the net's prior value otherwise (missing key or
shape mismatch — skipped silently, the function being total, no branch can
raise); keys present only in the pretrained mapping are ignored. -/
theorem load_pretrain_spec (net pretrain : StateDict)
    (hnd : (sdKeys pretrain).Nodup) :
    sdKeys (load_pretrain net pretrain) = sdKeys net ∧
    ∀ k, (load_pretrain net pretrain).lookup k =
      match net.lookup k, pretrain.lookup k with
      | some t, some p => if p.shape = t.shape then some p else some t
      | some t, none => some t
      | none, _ => none :=
  ⟨sdKeys_load_pretrain net pretrain,
    fun k => lookup_load_pretrain net pretrain k hnd⟩

/-- Witness for C6: a matching key is overwritten, a shape-mismatched key
keeps the net's value, an extra pretrained key stays absent. -/
theorem load_pretrain_spec_witness :
    ((load_pretrain
        [("a", ⟨[1], [0]⟩), ("b", ⟨[2], [0, 0]⟩)]
        [("a", ⟨[1], [5]⟩), ("b", ⟨[3], [1, 2, 3]⟩), ("z", ⟨[1], [9]⟩)]).lookup "a"
      = some ⟨[1], [5]⟩) ∧
    ((load_pretrain
        [("a", ⟨[1], [0]⟩), ("b", ⟨[2], [0, 0]⟩)]
        [("a", ⟨[1], [5]⟩), ("b", ⟨[3], [1, 2, 3]⟩), ("z", ⟨[1], [9]⟩)]).lookup "b"
      = some ⟨[2], [0, 0]⟩) ∧
    ((load_pretrain
        [("a", ⟨[1], [0]⟩), ("b", ⟨[2], [0, 0]⟩)]
        [("a", ⟨[1], [5]⟩), ("b", ⟨[3], [1, 2, 3]⟩), ("z", ⟨[1], [9]⟩)]).lookup "z"
      = none) := by
  obtain ⟨-, hlook⟩ := load_pretrain_spec
    [("a", ⟨[1], [0]⟩), ("b", ⟨[2], [0, 0]⟩)]
    [("a", ⟨[1], [5]⟩), ("b", ⟨[3], [1, 2, 3]⟩), ("z", ⟨[1], [9]⟩)]
    (by decide)
  refine ⟨?_, ?_, ?_⟩
  · rw [hlook "a"]
    decide
  · rw [hlook "b"]
    decide
  · rw [hlook "z"]
    decide

theorem twoPass_eq_clamp (low high : ℚ) (h : low ≤ high) (x : ℚ) :
    (if high < (if x < low then low else x) then high
      else (if x < low then low else x)) = clamp low high x := by
  unfold clamp
  rcases lt_or_le x low with hx | hx
  · rw [if_pos hx, if_neg (not_lt.mpr h)]
    rw [max_eq_right (le_of_lt hx), min_eq_left h]
  · rw [if_neg (not_lt.mpr hx), max_eq_left hx]
    rcases lt_or_le high x with hhx | hhx
    · rw [if_pos hhx, min_eq_right (le_of_lt hhx)]
    · rw [if_neg (not_lt.mpr hhx), min_eq_left hhx]

theorem clipPasses_eq_map_clamp (low high : ℚ) (h : low ≤ high) (g : List ℚ) :
    clipHighPass high (clipLowPass low g) = g.map (clamp low high) := by
  unfold clipHighPass clipLowPass
  rw [List.map_map]
  refine List.map_congr_left fun x _ => ?_
  exact twoPass_eq_clamp low high h x

theorem clamp_mem_Icc (low high : ℚ) (h : low ≤ high) (x : ℚ) :
    low ≤ clamp low high x ∧ clamp low high x ≤ high := by
  unfold clamp
  constructor
  · exact le_min (le_max_right x low) h
  · exact min_le_right _ _

/-- C4: the two sequential one-sided passes of `Optimizer.clip` agree
element-wise with a single combined clamp into `[clip_low, clip_high]`
(when the bounds are ordered): an element below the low bound becomes the
low bound, an element above the high bound becomes the high bound, an
element already inside the interval is untouched, every element of the
result lies inside the interval, and the whole `clip()` method rewrites
each present gradient (and nothing else) by that clamp. -/
theorem clip_spec {σ : Type} (o : Optimizer σ) (h : o.clip_low ≤ o.clip_high) :
    (∀ g : List ℚ, clipHighPass o.clip_high (clipLowPass o.clip_low g)
        = g.map (clamp o.clip_low o.clip_high)) ∧
    (∀ g : List ℚ, ∀ x ∈ clipHighPass o.clip_high (clipLowPass o.clip_low g),
        o.clip_low ≤ x ∧ x ≤ o.clip_high) ∧
    (∀ x : ℚ, x < o.clip_low →
        clipHighPass o.clip_high (clipLowPass o.clip_low [x]) = [o.clip_low]) ∧
    (∀ x : ℚ, o.clip_high < x →
        clipHighPass o.clip_high (clipLowPass o.clip_low [x]) = [o.clip_high]) ∧
    (∀ x : ℚ, o.clip_low ≤ x → x ≤ o.clip_high →
        clipHighPass o.clip_high (clipLowPass o.clip_low [x]) = [x]) ∧
    o.clip.opt.param_groups = o.opt.param_groups.map (fun pg =>
      { pg with params := pg.params.map fun p =>
        { p with grad := p.grad.map (List.map (clamp o.clip_low o.clip_high)) } }) := by
  refine ⟨clipPasses_eq_map_clamp _ _ h, ?_, ?_, ?_, ?_, ?_⟩
  · intro g x hx
    rw [clipPasses_eq_map_clamp _ _ h] at hx
    obtain ⟨y, -, rfl⟩ := List.mem_map.mp hx
    exact clamp_mem_Icc _ _ h y
  · intro x hx
    rw [clipPasses_eq_map_clamp _ _ h, List.map_singleton]
    rw [show clamp o.clip_low o.clip_high x = o.clip_low by
      unfold clamp
      rw [max_eq_right (le_of_lt hx), min_eq_left h]]
  · intro x hx
    rw [clipPasses_eq_map_clamp _ _ h, List.map_singleton]
    rw [show clamp o.clip_low o.clip_high x = o.clip_high by
      unfold clamp
      rw [max_eq_left (le_trans h (le_of_lt hx)), min_eq_right (le_of_lt hx)]]
  · intro x hlo hhi
    rw [clipPasses_eq_map_clamp _ _ h, List.map_singleton]
    rw [show clamp o.clip_low o.clip_high x = x by
      unfold clamp
      rw [max_eq_left hlo, min_eq_left hhi]]
  · unfold Optimizer.clip
    refine List.map_congr_left fun pg _ => ?_
    congr 1
    refine List.map_congr_left fun p _ => ?_
    unfold Param.clipGrad
    congr 1
    cases p.grad with
    | none => rfl
    | some g =>
      simp only [Option.map_some']
      rw [clipPasses_eq_map_clamp _ _ h]

/-- Witness for C4 at bounds `[-1, 2]` on the gradient `[-5, 0, 7]`. -/
theorem clip_spec_witness :
    clipHighPass 2 (clipLowPass (-1) [(-5 : ℚ), 0, 7]) = [(-1 : ℚ), 0, 2] := by
  have h := (clip_spec (σ := PUnit)
    ⟨[], ⟨[], []⟩, ⟨[], PUnit.unit⟩, true, -1, 2⟩ (by norm_num)).1
  have h2 : clipHighPass 2 (clipLowPass (-1) [(-5 : ℚ), 0, 7])
      = List.map (clamp (-1) 2) [(-5 : ℚ), 0, 7] := h [(-5 : ℚ), 0, 7]
  rw [h2]
  norm_num [clamp]

theorem zip_scale_get (gs : List ParamGroup) (cs : List ℚ) (lr : ℚ)
    (i : Nat)
    (hz : i < ((gs.zip cs).map fun gc => { gc.1 with lr := lr * gc.2 }).length)
    (hi : i < gs.length) (hc : i < cs.length) :
    ((gs.zip cs).map fun gc => { gc.1 with lr := lr * gc.2 }).get ⟨i, hz⟩
      = { gs.get ⟨i, hi⟩ with lr := lr * cs.get ⟨i, hc⟩ } := by
  simp [List.get_eq_getElem, List.getElem_map, List.getElem_zip]

theorem clip_groups_length {σ : Type} (o : Optimizer σ) :
    o.clip.opt.param_groups.length = o.opt.param_groups.length := by
  simp [Optimizer.clip]

/-- C2: `step(epoch)` always returns the unscaled base rate
`schedule(epoch)`.  With clipping disabled, the state handed to the
underlying optimizer's update is the wrapper's own param groups with each
group `i`'s rate set to `schedule(epoch) * coef[i]`; with clipping
enabled, the groups handed over are those of `clip()` (clamped gradients)
— the clamp happens before the learning-rate assignment and before the
delegated update — again with rate `schedule(epoch) * coef[i]`, while the
returned value stays the unscaled `schedule(epoch)`. -/
theorem step_spec {σ : Type} (inner_step : InnerOpt σ → InnerOpt σ)
    (o : Optimizer σ) (epoch : ℤ)
    (hlen : o.coef.length = o.opt.param_groups.length) :
    ((o.step inner_step epoch).2 = o.lr_func.call epoch) ∧
    (o.clip_grads = false →
      ∃ groups : List ParamGroup,
        (o.step inner_step epoch).1.opt = inner_step ⟨groups, o.opt.internal⟩ ∧
        groups.length = o.opt.param_groups.length ∧
        ∀ i (hi : i < groups.length) (hio : i < o.opt.param_groups.length)
            (hic : i < o.coef.length),
          groups.get ⟨i, hi⟩ =
            { o.opt.param_groups.get ⟨i, hio⟩ with
              lr := o.lr_func.call epoch * o.coef.get ⟨i, hic⟩ }) ∧
    (o.clip_grads = true →
      ∃ groups : List ParamGroup,
        (o.step inner_step epoch).1.opt = inner_step ⟨groups, o.opt.internal⟩ ∧
        groups.length = o.opt.param_groups.length ∧
        ∀ i (hi : i < groups.length)
            (hio : i < o.clip.opt.param_groups.length)
            (hic : i < o.coef.length),
          groups.get ⟨i, hi⟩ =
            { o.clip.opt.param_groups.get ⟨i, hio⟩ with
              lr := o.lr_func.call epoch * o.coef.get ⟨i, hic⟩ }) := by
  refine ⟨?_, ?_, ?_⟩
  · cases hcg : o.clip_grads <;>
      simp [Optimizer.step, hcg, Optimizer.clip]
  · intro hcg
    refine ⟨(o.opt.param_groups.zip o.coef).map
      (fun gc => { gc.1 with lr := o.lr_func.call epoch * gc.2 }), ?_, ?_, ?_⟩
    · simp [Optimizer.step, hcg]
    · simp [List.length_zip]
      omega
    · intro i hi hio hic
      exact zip_scale_get o.opt.param_groups o.coef _ i hi hio hic
  · intro hcg
    refine ⟨(o.clip.opt.param_groups.zip o.coef).map
      (fun gc => { gc.1 with lr := o.lr_func.call epoch * gc.2 }), ?_, ?_, ?_⟩
    · simp [Optimizer.step, hcg]
      rfl
    · simp [List.length_zip, clip_groups_length]
      omega
    · intro i hi hio hic
      exact zip_scale_get o.clip.opt.param_groups o.coef _ i hi hio hic

/-- Witness for C2 on a one-group optimizer with clipping disabled. -/
theorem step_spec_witness :
    ((Optimizer.mk [(1 : ℚ)] ⟨[(5 : ℚ)], []⟩
        ⟨[⟨[⟨[0], some [3]⟩], 0⟩], PUnit.unit⟩ false 0 0).step id 7).2 = 5 := by
  have h := (step_spec id
    (Optimizer.mk [(1 : ℚ)] ⟨[(5 : ℚ)], []⟩
      ⟨[⟨[⟨[0], some [3]⟩], 0⟩], PUnit.unit⟩ false 0 0) 7 rfl).1
  rw [h]
  norm_num [StepLR.call, stepIdx]

/-- C3: `Optimizer.__init__` overwrites its `coef` argument with
`[1.0] * len(params)` no matter what was passed (including `None` or a
list of non-unit scalars), so in `step(epoch)` every group's effective
rate handed to the underlying optimizer equals the unscaled base rate
`schedule(epoch)`. -/
theorem init_coef_spec {σ : Type} (params : List (List Param))
    (coefArg : Option (List ℚ)) (internal : σ)
    (inner_step : InnerOpt σ → InnerOpt σ) (epoch : ℤ) :
    (Optimizer.init params coefArg internal).coef
        = List.replicate params.length 1 ∧
    ∃ groups : List ParamGroup,
      ((Optimizer.init params coefArg internal).step inner_step epoch).1.opt
          = inner_step ⟨groups, internal⟩ ∧
      groups.length = params.length ∧
      ∀ i (hi : i < groups.length),
        (groups.get ⟨i, hi⟩).lr
          = (Optimizer.init params coefArg internal).lr_func.call epoch := by
  refine ⟨rfl, ?_⟩
  refine ⟨(((Optimizer.init params coefArg internal).opt.param_groups).zip
      (List.replicate params.length (1 : ℚ))).map
    (fun gc => { gc.1 with
      lr := (Optimizer.init params coefArg internal).lr_func.call epoch * gc.2 }), ?_, ?_, ?_⟩
  · simp [Optimizer.step, Optimizer.init]
  · simp [List.length_zip, Optimizer.init]
  · intro i hi
    have hlen : ((Optimizer.init params coefArg internal).opt.param_groups).length
        = params.length := by
      simp [Optimizer.init]
    have hi1 : i < ((Optimizer.init params coefArg internal).opt.param_groups).length := by
      simp only [List.length_map, List.length_zip, List.length_replicate] at hi
      omega
    have hi2 : i < (List.replicate params.length (1 : ℚ)).length := by
      simp only [List.length_map, List.length_zip, List.length_replicate] at hi
      simp only [List.length_replicate]
      omega
    rw [zip_scale_get _ _ _ i hi hi1 hi2]
    simp [List.get_eq_getElem, List.getElem_replicate]

/-- Witness for C3: a non-`None`, non-unit `coef` argument is ignored. -/
theorem init_coef_spec_witness :
    (Optimizer.init [[⟨[0], none⟩], [⟨[1], none⟩]]
        (some [(7 : ℚ), 9]) PUnit.unit).coef = [1, 1] :=
  (init_coef_spec [[⟨[0], none⟩], [⟨[1], none⟩]]
    (some [(7 : ℚ), 9]) PUnit.unit id 0).1

/-- C5: the snapshot of `state_dict()` is exactly the three fields
`lr_func` (itself `{lr, lr_epochs}`), `coef` and `opt_state`, while
`load_state_dict(opt_state)` only forwards to the underlying optimizer's
restore: after it, the wrapper's `coef` and schedule are unchanged. -/
theorem state_dict_load_spec {σ ι : Type} (inner_snap : InnerOpt σ → ι)
    (inner_load : InnerOpt σ → ι → InnerOpt σ) (o : Optimizer σ) (s : ι) :
    Optimizer.state_dict inner_snap o
        = ⟨⟨o.lr_func.lr, o.lr_func.lr_epochs⟩, o.coef, inner_snap o.opt⟩ ∧
    (Optimizer.load_state_dict inner_load o s).coef = o.coef ∧
    (Optimizer.load_state_dict inner_load o s).lr_func = o.lr_func ∧
    (Optimizer.load_state_dict inner_load o s).opt = inner_load o.opt s ∧
    Optimizer.state_dict inner_snap (Optimizer.load_state_dict inner_load o s)
        = ⟨⟨o.lr_func.lr, o.lr_func.lr_epochs⟩, o.coef,
            inner_snap (inner_load o.opt s)⟩ :=
  ⟨rfl, rfl, rfl, rfl, rfl⟩

mutual
theorem to_long_mono (c : Nat) (d : PyData) : c ≤ (to_long c d).1 := by
  cases d with
  | dict i es =>
    simpa [to_long] using to_long_entries_mono c es
  | list i es =>
    have h := to_long_list_mono c es
    simp only [to_long]
    omega
  | tuple i es =>
    have h := to_long_list_mono c es
    simp only [to_long]
    omega
  | tensor i dt vs =>
    by_cases hdt : dt = DType.int16 <;> simp [to_long, hdt]

theorem to_long_entries_mono (c : Nat) (es : List (String × PyData)) :
    c ≤ (to_long_entries c es).1 := by
  cases es with
  | nil => simp [to_long_entries]
  | cons kv rest =>
    obtain ⟨k, v⟩ := kv
    have h1 := to_long_mono c v
    have h2 := to_long_entries_mono (to_long c v).1 rest
    simp only [to_long_entries]
    omega

theorem to_long_list_mono (c : Nat) (es : List PyData) :
    c ≤ (to_long_list c es).1 := by
  cases es with
  | nil => simp [to_long_list]
  | cons v rest =>
    have h1 := to_long_mono c v
    have h2 := to_long_list_mono (to_long c v).1 rest
    simp only [to_long_list]
    omega
end

mutual
theorem obs_to_long (c : Nat) (d : PyData) :
    obs (to_long c d).2 = widenSpec (obs d) := by
  cases d with
  | dict i es =>
    simp [to_long, obs, widenSpec, obs_to_long_entries c es]
  | list i es =>
    simp [to_long, obs, widenSpec, obs_to_long_list c es]
  | tuple i es =>
    simp [to_long, obs, widenSpec, obs_to_long_list c es]
  | tensor i dt vs =>
    by_cases hdt : dt = DType.int16 <;> simp [to_long, obs, widenSpec, hdt]

theorem obs_to_long_entries (c : Nat) (es : List (String × PyData)) :
    obsEntries (to_long_entries c es).2 = widenSpecEntries (obsEntries es) := by
  cases es with
  | nil => simp [to_long_entries, obsEntries, widenSpecEntries]
  | cons kv rest =>
    obtain ⟨k, v⟩ := kv
    simp [to_long_entries, obsEntries, widenSpecEntries, obs_to_long c v,
      obs_to_long_entries (to_long c v).1 rest]

theorem obs_to_long_list (c : Nat) (es : List PyData) :
    obsList (to_long_list c es).2 = widenSpecList (obsList es) := by
  cases es with
  | nil => simp [to_long_list, obsList, widenSpecList]
  | cons v rest =>
    simp [to_long_list, obsList, widenSpecList, obs_to_long c v,
      obs_to_long_list (to_long c v).1 rest]
end

theorem to_long_identity (c : Nat) (d : PyData) :
    identityBehavior c d (to_long c d).2 := by
  cases d with
  | dict i es => exact ⟨(to_long_entries c es).2, rfl⟩
  | list i es =>
    exact ⟨(to_long_list c es).1, (to_long_list c es).2, rfl,
      to_long_list_mono c es⟩
  | tuple i es =>
    exact ⟨(to_long_list c es).1, (to_long_list c es).2, rfl,
      to_long_list_mono c es⟩
  | tensor i dt vs =>
    cases dt with
    | int16 =>
      simp only [identityBehavior, to_long]
      exact ⟨c, by simp, Nat.le_refl c⟩
    | int64 => simp [identityBehavior, to_long]
    | float32 => simp [identityBehavior, to_long]

/-- C9: `to_long` converts exactly the 16-bit integer tensor leaves to
64-bit (values intact), passes every other leaf through unchanged, and
preserves the container structure (the content transform is `widenSpec`,
written from the spec); identity-wise, a dict is mutated in place (the
result keeps the dict's own object tag), while a list or tuple is rebuilt
as a freshly allocated sequence — on a well-formed heap (`idsBelow`) the
rebuilt sequence's tag differs from the input's, and the dict's tag is
exactly the input's. -/
theorem to_long_spec (c : Nat) (d : PyData) (h : idsBelow c d = true) :
    obs (to_long c d).2 = widenSpec (obs d) ∧
    identityBehavior c d (to_long c d).2 ∧
    (∀ i es, d = PyData.list i es → (to_long c d).2.objId ≠ d.objId) ∧
    (∀ i es, d = PyData.tuple i es → (to_long c d).2.objId ≠ d.objId) ∧
    (∀ i es, d = PyData.dict i es → (to_long c d).2.objId = d.objId) := by
  refine ⟨obs_to_long c d, to_long_identity c d, ?_, ?_, ?_⟩
  · rintro i es rfl
    have hm := to_long_list_mono c es
    simp only [idsBelow, Bool.and_eq_true, decide_eq_true_eq] at h
    simp only [to_long, PyData.objId]
    omega
  · rintro i es rfl
    have hm := to_long_list_mono c es
    simp only [idsBelow, Bool.and_eq_true, decide_eq_true_eq] at h
    simp only [to_long, PyData.objId]
    omega
  · rintro i es rfl
    simp [to_long, PyData.objId]

/-- Witness for C9: a dict holding an int16 tensor and a nested list, on a
heap whose tags are all below the fresh counter 4. -/
theorem to_long_spec_witness :
    idsBelow 4 (PyData.dict 0 [("a", PyData.tensor 1 DType.int16 [3]),
        ("b", PyData.list 2 [PyData.tensor 3 DType.float32 [7]])]) = true ∧
    (to_long 4 (PyData.dict 0 [("a", PyData.tensor 1 DType.int16 [3]),
        ("b", PyData.list 2 [PyData.tensor 3 DType.float32 [7]])])).2.objId = 0 := by
  refine ⟨by decide, ?_⟩
  have h := (to_long_spec 4
    (PyData.dict 0 [("a", PyData.tensor 1 DType.int16 [3]),
      ("b", PyData.list 2 [PyData.tensor 3 DType.float32 [7]])])
    (by decide)).2.2.2.2 0
    [("a", PyData.tensor 1 DType.int16 [3]),
      ("b", PyData.list 2 [PyData.tensor 3 DType.float32 [7]])] rfl
  simpa [PyData.objId] using h

theorem rotate_pointwise (xy : List (ℝ × ℝ)) (theta : List ℝ)
    (i : Nat) (hr : i < (rotate xy theta).length)
    (hi : i < xy.length) (ht : i < theta.length) :
    (rotate xy theta).get ⟨i, hr⟩ =
      (Real.cos (theta.get ⟨i, ht⟩) * (xy.get ⟨i, hi⟩).1
          + (-Real.sin (theta.get ⟨i, ht⟩)) * (xy.get ⟨i, hi⟩).2,
       Real.sin (theta.get ⟨i, ht⟩) * (xy.get ⟨i, hi⟩).1
          + Real.cos (theta.get ⟨i, ht⟩) * (xy.get ⟨i, hi⟩).2) := by
  simp [rotate, List.get_eq_getElem, List.getElem_map, List.getElem_zip]

theorem rotate_zero (xy : List (ℝ × ℝ)) :
    rotate xy (List.replicate xy.length 0) = xy := by
  induction xy with
  | nil => rfl
  | cons p rest ih =>
    simp only [List.length_cons, List.replicate_succ, rotate, List.zip_cons_cons,
      List.map_cons] at ih ⊢
    rw [Real.cos_zero, Real.sin_zero]
    simp only [neg_zero, one_mul, zero_mul, add_zero, zero_add]
    exact congrArg₂ List.cons rfl ih

/-- C10: `rotate(xy, theta)` on N points and N angles yields N points, the
i-th being the rotation matrix `[[cos θᵢ, -sin θᵢ], [sin θᵢ, cos θᵢ]]`
applied to `xy[i]`; with all angles zero the output is exactly the input,
and each output point's squared Euclidean norm equals the input point's,
for every `theta`.  (Float trigonometry idealised over `ℝ`.) -/
theorem rotate_spec (xy : List (ℝ × ℝ)) (theta : List ℝ)
    (hlen : theta.length = xy.length) :
    (rotate xy theta).length = xy.length ∧
    (∀ i (hr : i < (rotate xy theta).length) (hi : i < xy.length)
        (ht : i < theta.length),
      (rotate xy theta).get ⟨i, hr⟩ =
        (Real.cos (theta.get ⟨i, ht⟩) * (xy.get ⟨i, hi⟩).1
            + (-Real.sin (theta.get ⟨i, ht⟩)) * (xy.get ⟨i, hi⟩).2,
         Real.sin (theta.get ⟨i, ht⟩) * (xy.get ⟨i, hi⟩).1
            + Real.cos (theta.get ⟨i, ht⟩) * (xy.get ⟨i, hi⟩).2)) ∧
    rotate xy (List.replicate xy.length 0) = xy ∧
    (∀ i (hr : i < (rotate xy theta).length) (hi : i < xy.length),
      ((rotate xy theta).get ⟨i, hr⟩).1 ^ 2 + ((rotate xy theta).get ⟨i, hr⟩).2 ^ 2
        = (xy.get ⟨i, hi⟩).1 ^ 2 + (xy.get ⟨i, hi⟩).2 ^ 2) := by
  refine ⟨?_, rotate_pointwise xy theta, rotate_zero xy, ?_⟩
  · simp [rotate, List.length_zip, hlen]
  · intro i hr hi
    have ht : i < theta.length := by omega
    rw [rotate_pointwise xy theta i hr hi ht]
    have hpyth := Real.sin_sq_add_cos_sq (theta.get ⟨i, ht⟩)
    set s := Real.sin (theta.get ⟨i, ht⟩)
    set co := Real.cos (theta.get ⟨i, ht⟩)
    set x := (xy.get ⟨i, hi⟩).1
    set y := (xy.get ⟨i, hi⟩).2
    simp only []
    linear_combination (x ^ 2 + y ^ 2) * hpyth

/-- Witness for C10: the point (1, 0) with angle 0 rotates to itself. -/
theorem rotate_spec_witness :
    rotate [((1 : ℝ), (0 : ℝ))] (List.replicate 1 0) = [((1 : ℝ), (0 : ℝ))] :=
  (rotate_spec [((1 : ℝ), (0 : ℝ))] [(0 : ℝ)] rfl).2.2.1
